import Mathlib

/-!
Verification of the Sudoku generator / solver (`sudoko.cpp`).

The 9x9 board `int g[9][9]` is embedded as `Grid := Fin 9 → Fin 9 → Nat`
(0 = empty cell).  The C library `rand()` is embedded as an explicit
stream of naturals together with a position (`Rng`); each `rand()` call
reads the stream and advances the position.  The recursive backtracking
routines are embedded with an explicit fuel argument; the recursion depth
of the source is bounded by the number of empty cells (at most 81), so a
fuel larger than that reproduces the source behaviour exactly, which is
what the wrapper definitions use.  In-place mutation of the board becomes
explicit state passing: each routine returns the final state of its grid
argument next to its result.
-/

set_option maxHeartbeats 1000000
set_option maxRecDepth 2048
set_option linter.constructorNameAsVariable false

namespace Sudoku

/-- The 9x9 board: `int g[9][9]`, 0 = `UNASSIGNED`. -/
abbrev Grid := Fin 9 → Fin 9 → Nat

/-- The all-empty board (`out[r][c] = UNASSIGNED` loop in `generatePuzzle`). -/
def zeroGrid : Grid := fun _ _ => 0

/-- Assignment `g[r][c] = v` as a functional update. -/
def setCell (g : Grid) (r c : Fin 9) (v : Nat) : Grid :=
  fun r' c' => if r' = r ∧ c' = c then v else g r' c'

/-- The C library random source: a stream of `rand()` results and the
current position in it. -/
structure Rng where
  stream : Nat → Nat
  pos : Nat

/-- One `rand()` call: read the stream, advance the position. -/
def randNext (s : Rng) : Nat × Rng :=
  (s.stream s.pos, ⟨s.stream, s.pos + 1⟩)

/-- `bool usedInRow(g, row, num)`: the row scan of the source. -/
def usedInRow (g : Grid) (row : Fin 9) (num : Nat) : Bool :=
  decide (∃ c : Fin 9, g row c = num)

/-- `bool usedInCol(g, col, num)`: the column scan of the source. -/
def usedInCol (g : Grid) (col : Fin 9) (num : Nat) : Bool :=
  decide (∃ r : Fin 9, g r col = num)

/-- `bool usedInBox(g, boxStartRow, boxStartCol, num)`: the 3x3 scan of the
source.  The callers always pass box origins `0`, `3` or `6`, for which the
`% 9` index guards are the identity. -/
def usedInBox (g : Grid) (boxStartRow boxStartCol : Nat) (num : Nat) : Bool :=
  decide (∃ r : Fin 3, ∃ c : Fin 3,
    g ⟨(boxStartRow + r.val) % 9, Nat.mod_lt _ (by omega)⟩
      ⟨(boxStartCol + c.val) % 9, Nat.mod_lt _ (by omega)⟩ = num)

/-- `bool isSafe(g, row, col, num)`. -/
def isSafe (g : Grid) (row col : Fin 9) (num : Nat) : Bool :=
  !usedInRow g row num && !usedInCol g col num &&
    !usedInBox g (row.val - row.val % 3) (col.val - col.val % 3) num &&
    decide (g row col = 0)

/-- The row-major list of all 81 cells, the traversal order of
`findUnassigned`. -/
def cellsList : List (Fin 9 × Fin 9) :=
  (List.finRange 9).flatMap fun r => (List.finRange 9).map fun c => (r, c)

/-- `bool findUnassigned(g, row, col)`: first empty cell in row-major
order, `none` when the grid is full. -/
def findUnassigned (g : Grid) : Option (Fin 9 × Fin 9) :=
  cellsList.find? fun p => decide (g p.1 p.2 = 0)

/-- The array swap `tmp = out[i]; out[i] = out[j]; out[j] = tmp` on an
array embedded as a function. -/
def swapFn {n : Nat} (out : Fin n → Nat) (i j : Fin n) : Fin n → Nat :=
  Function.update (Function.update out i (out j)) j (out i)

/-- The Fisher-Yates loop `for (i = hi; i > 0; --i) swap(out[i], out[rand() % (i+1)])`,
here counting the loop variable down from `i+1` to `1` (the argument is the
current loop index minus one).  The `% (n+1)` index guards are the identity
for the in-range indices the algorithm produces. -/
def fisherYatesGo {n : Nat} : Nat → (Fin (n + 1) → Nat) → Rng → (Fin (n + 1) → Nat) × Rng
  | 0, out, s => (out, s)
  | i + 1, out, s =>
    let rv := randNext s
    let j := rv.1 % (i + 2)
    fisherYatesGo i
      (swapFn out ⟨(i + 1) % (n + 1), Nat.mod_lt _ (Nat.succ_pos n)⟩
        ⟨j % (n + 1), Nat.mod_lt _ (Nat.succ_pos n)⟩) rv.2

/-- `void shuffledDigits(int out[9])`: digits 1..9, Fisher-Yates shuffled,
read off in index order. -/
def shuffledDigits (s : Rng) : List Nat × Rng :=
  let res := fisherYatesGo (n := 8) 8 (fun k => k.val + 1) s
  ((List.finRange 9).map res.1, res.2)

/-- The digit loop shared verbatim by `solveSudoku` and `fillGrid`:
`for num in order: if isSafe: place; recurse; on success return true;
otherwise undo`.  `recur` is the enclosing recursive function, applied to
one unit less fuel by the callers. -/
def tryDigits (recur : Grid → Rng → Bool × Grid × Rng) (r c : Fin 9) :
    Grid → List Nat → Rng → Bool × Grid × Rng
  | g, [], s => (false, g, s)
  | g, num :: rest, s =>
    if isSafe g r c num then
      let res := recur (setCell g r c num) s
      if res.1 then res
      else tryDigits recur r c (setCell res.2.1 r c 0) rest res.2.2
    else tryDigits recur r c g rest s

/-- `bool solveSudoku(int g[N][N])`, with explicit fuel; fuel above the
number of empty cells is never exhausted. -/
def solveSudokuF : Nat → Grid → Rng → Bool × Grid × Rng
  | 0, g, s => (false, g, s)
  | fuel + 1, g, s =>
    match findUnassigned g with
    | none => (true, g, s)
    | some (r, c) =>
      let os := shuffledDigits s
      tryDigits (solveSudokuF fuel) r c g os.1 os.2

/-- `bool fillGrid(int g[N][N])`: textually the same recursion as
`solveSudoku`. -/
def fillGridF : Nat → Grid → Rng → Bool × Grid × Rng
  | 0, g, s => (false, g, s)
  | fuel + 1, g, s =>
    match findUnassigned g with
    | none => (true, g, s)
    | some (r, c) =>
      let os := shuffledDigits s
      tryDigits (fillGridF fuel) r c g os.1 os.2

/-- Number of empty cells of `g`; bounds the recursion depth of every
backtracking routine of the source. -/
def numEmpty (g : Grid) : Nat :=
  (Finset.univ.filter fun p : Fin 9 × Fin 9 => g p.1 p.2 = 0).card

/-- `solveSudoku` at the fuel that reproduces the source's recursion. -/
def solveSudoku (g : Grid) (s : Rng) : Bool × Grid × Rng :=
  solveSudokuF (numEmpty g + 1) g s

/-- `fillGrid` at the fuel that reproduces the source's recursion. -/
def fillGrid (g : Grid) (s : Rng) : Bool × Grid × Rng :=
  fillGridF (numEmpty g + 1) g s

/-- The digit loop of `countSolutionsDFS`: place a safe digit, recurse,
undo; stop the loop as soon as the running count reaches `limit`. -/
def countTryDigits (recur : Grid → Nat → Rng → Nat × Grid × Rng) (r c : Fin 9)
    (limit : Nat) : Grid → List Nat → Nat → Rng → Nat × Grid × Rng
  | g, [], cnt, s => (cnt, g, s)
  | g, num :: rest, cnt, s =>
    if isSafe g r c num then
      let res := recur (setCell g r c num) cnt s
      if limit ≤ res.1 then (res.1, setCell res.2.1 r c 0, res.2.2)
      else countTryDigits recur r c limit (setCell res.2.1 r c 0) rest res.1 res.2.2
    else countTryDigits recur r c limit g rest cnt s

/-- `void countSolutionsDFS(int g[N][N], int &count, int limit)`, with
explicit fuel; returns the final count next to the final grid state. -/
def countSolutionsDFS : Nat → Grid → Nat → Nat → Rng → Nat × Grid × Rng
  | 0, g, cnt, _, s => (cnt, g, s)
  | fuel + 1, g, cnt, limit, s =>
    if limit ≤ cnt then (cnt, g, s)
    else
      match findUnassigned g with
      | none => (cnt + 1, g, s)
      | some (r, c) =>
        let os := shuffledDigits s
        countTryDigits (fun g' cnt' s' => countSolutionsDFS fuel g' cnt' limit s') r c
          limit g os.1 cnt os.2

/-- `int countSolutions(int g[N][N], int limit = 2)`: copies `g` into a
private board `tmp`, counts on the copy, returns only the count. -/
def countSolutions (g : Grid) (limit : Nat) (s : Rng) : Nat × Rng :=
  let tmp : Grid := fun r c => g r c
  match countSolutionsDFS (numEmpty g + 1) tmp 0 limit s with
  | (cnt, _, s1) => (cnt, s1)

/-- `int r = pos / 9, c = pos % 9` of the carving loop.  Positions produced
by the shuffle are below 81, for which the `% 9` guard on the row is the
identity. -/
def cellOfPos (pos : Nat) : Fin 9 × Fin 9 :=
  (⟨pos / 9 % 9, Nat.mod_lt _ (by omega)⟩, ⟨pos % 9, Nat.mod_lt _ (by omega)⟩)

/-- The carving loop of `carveUnique`: walk the shuffled cell positions,
tentatively clear each filled cell, keep the removal only when the puzzle
still has exactly one solution, stop once `toRemove` cells are removed. -/
def carveLoop : List Nat → Grid → Nat → Nat → Rng → Grid × Rng
  | [], g, _, _, s => (g, s)
  | pos :: rest, g, removed, toRemove, s =>
    if toRemove ≤ removed then (g, s)
    else
      let r := (cellOfPos pos).1
      let c := (cellOfPos pos).2
      if g r c = 0 then carveLoop rest g removed toRemove s
      else
        let backup := g r c
        let g1 := setCell g r c 0
        let res := countSolutions g1 2 s
        if res.1 = 1 then carveLoop rest g1 (removed + 1) toRemove res.2
        else carveLoop rest (setCell g1 r c backup) removed toRemove res.2

/-- `void carveUnique(int g[N][N], int toRemove)`: shuffle the 81 cell
indices, then run the carving loop. -/
def carveUnique (g : Grid) (toRemove : Nat) (s : Rng) : Grid × Rng :=
  let res := fisherYatesGo (n := 80) 80 (fun k => k.val) s
  let cells := (List.finRange 81).map res.1
  carveLoop cells g 0 toRemove res.2

/-- The clue-count draw of `generatePuzzle`: 45..50 for "easy", 34..39 for
"medium", 24..29 for "hard", the medium range for anything else; `rv` is
the `rand()` value drawn (one call in every branch of the source). -/
def clueTarget (difficulty : String) (rv : Nat) : Nat :=
  if difficulty = "easy" then 45 + rv % 6
  else if difficulty = "medium" then 34 + rv % 6
  else if difficulty = "hard" then 24 + rv % 6
  else 34 + rv % 6

/-- `void generatePuzzle(int out[N][N], const string& difficulty)`.  The
fuel bounds the retry-on-fill-failure recursion of the source; `fillGrid`
on the empty grid always succeeds (proved below), so any positive fuel
reproduces the source behaviour and the fuel-0 fallback is unreachable. -/
def generatePuzzle : Nat → String → Rng → Grid × Rng
  | 0, _, s => (zeroGrid, s)
  | fuel + 1, difficulty, s =>
    let res := fillGrid zeroGrid s
    if res.1 then
      let rv := randNext res.2.2
      let clues := clueTarget difficulty rv.1
      let toRemove := 81 - clues
      carveUnique res.2.1 toRemove rv.2
    else generatePuzzle fuel difficulty res.2.2

/-! ### Specification-side notions -/

/-- All entries of the board are in the data-model range {0,…,9}. -/
def inRange (g : Grid) : Prop := ∀ r c, g r c ≤ 9

instance (g : Grid) : Decidable (inRange g) := by
  unfold inRange; infer_instance

/-- The board has no empty cell. -/
def isFull (g : Grid) : Prop := ∀ r c, g r c ≠ 0

instance (g : Grid) : Decidable (isFull g) := by
  unfold isFull; infer_instance

/-- Two cells see each other: same row, same column, or same 3x3 box. -/
def conflict (r c r' c' : Fin 9) : Prop :=
  r = r' ∨ c = c' ∨ (r.val / 3 = r'.val / 3 ∧ c.val / 3 = c'.val / 3)

instance (r c r' c' : Fin 9) : Decidable (conflict r c r' c') := by
  unfold conflict; infer_instance

/-- No duplicate nonzero digit within any row, column, or box. -/
def noDups (g : Grid) : Prop :=
  ∀ r c r' c', conflict r c r' c' → (r, c) ≠ (r', c') → g r c ≠ 0 →
    g r c ≠ g r' c'

instance (g : Grid) : Decidable (noDups g) := by
  unfold noDups; infer_instance

/-- A completely filled board with one digit (encoded as `Fin 9`, digit =
value + 1) per cell. -/
abbrev FullGrid := Fin 9 → Fin 9 → Fin 9

/-- Read a `FullGrid` as a board. -/
def toGrid (h : FullGrid) : Grid := fun r c => (h r c).val + 1

/-- `h` agrees with every already-placed (nonzero) cell of `g`. -/
def completes (h : FullGrid) (g : Grid) : Prop :=
  ∀ r c, g r c ≠ 0 → toGrid h r c = g r c

instance (h : FullGrid) (g : Grid) : Decidable (completes h g) := by
  unfold completes; infer_instance

/-- A `FullGrid` is a valid solved board. -/
def goodFull (h : FullGrid) : Prop := noDups (toGrid h)

instance (h : FullGrid) : Decidable (goodFull h) := by
  unfold goodFull; infer_instance

/-- The set of full valid completions of `g`. -/
def sols (g : Grid) : Finset FullGrid :=
  Finset.univ.filter fun h => completes h g ∧ goodFull h

/-- The number of distinct full valid completions of `g`. -/
def numSols (g : Grid) : Nat := (sols g).card

/-- Number of filled (nonzero) cells of `g` — the clue count. -/
def filledCount (g : Grid) : Nat :=
  (Finset.univ.filter fun p : Fin 9 × Fin 9 => g p.1 p.2 ≠ 0).card

/-- The full board read back from a full in-range grid. -/
def toFull (g : Grid) : FullGrid :=
  fun r c => ⟨(g r c - 1) % 9, Nat.mod_lt _ (by omega)⟩

/-- Occurrences of digit `d` in row `r`. -/
def rowCount (g : Grid) (r : Fin 9) (d : Nat) : Nat :=
  (Finset.univ.filter fun c => g r c = d).card

/-- Occurrences of digit `d` in column `c`. -/
def colCount (g : Grid) (c : Fin 9) (d : Nat) : Nat :=
  (Finset.univ.filter fun r => g r c = d).card

/-- The box coordinates of a cell. -/
def boxOf (p : Fin 9 × Fin 9) : Fin 3 × Fin 3 :=
  (⟨p.1.val / 3, by have := p.1.isLt; omega⟩, ⟨p.2.val / 3, by have := p.2.isLt; omega⟩)

/-- Occurrences of digit `d` in the 3x3 box with coordinates `(br, bc)`. -/
def boxCount (g : Grid) (br bc : Fin 3) (d : Nat) : Nat :=
  (Finset.univ.filter fun p : Fin 9 × Fin 9 =>
    p.1.val / 3 = br.val ∧ p.2.val / 3 = bc.val ∧ g p.1 p.2 = d).card

/-- Every row, column and 3x3 box contains each digit 1..9 exactly once. -/
def latinOK (g : Grid) : Prop :=
  ∀ d, 1 ≤ d → d ≤ 9 →
    (∀ r, rowCount g r d = 1) ∧ (∀ c, colCount g c d = 1) ∧
      (∀ br bc, boxCount g br bc d = 1)

/-- The grid mutations the backtracking search performs: a placement
guarded by `isSafe`, or clearing a cell back to empty. -/
inductive SearchStep : Grid → Grid → Prop
  | place (g : Grid) (r c : Fin 9) (num : Nat)
      (h : isSafe g r c num = true) : SearchStep g (setCell g r c num)
  | clear (g : Grid) (r c : Fin 9) : SearchStep g (setCell g r c 0)

/-- A classically valid solved board, used as a witness that the empty
grid has at least one completion. -/
def baseSol : FullGrid :=
  fun r c => ⟨(3 * (r.val % 3) + r.val / 3 + c.val) % 9, Nat.mod_lt _ (by omega)⟩

/-- A fixed random stream for concrete evaluations. -/
def rng0 : Rng := ⟨fun _ => 0, 0⟩

/-- The all-ones board: full, but not a valid solved board. -/
def allOnes : Grid := fun _ _ => 1

/-! ### Basic lemmas about cells -/

theorem setCell_same (g : Grid) (r c : Fin 9) (v : Nat) : setCell g r c v r c = v := by
  simp [setCell]

theorem setCell_other {g : Grid} {r c : Fin 9} {v : Nat} {r' c' : Fin 9}
    (h : ¬(r' = r ∧ c' = c)) : setCell g r c v r' c' = g r' c' := by
  simp [setCell, h]

theorem setCell_setCell (g : Grid) (r c : Fin 9) (v w : Nat) :
    setCell (setCell g r c v) r c w = setCell g r c w := by
  funext r' c'
  by_cases h : r' = r ∧ c' = c <;> simp [setCell, h]

theorem setCell_self (g : Grid) (r c : Fin 9) {v : Nat} (h : g r c = v) :
    setCell g r c v = g := by
  funext r' c'
  by_cases h' : r' = r ∧ c' = c
  · obtain ⟨rfl, rfl⟩ := h'; simp [setCell, h.symm]
  · simp [setCell, h']

theorem mem_cellsList (p : Fin 9 × Fin 9) : p ∈ cellsList := by
  simp only [cellsList, List.mem_flatMap, List.mem_map, List.mem_finRange]
  exact ⟨p.1, trivial, p.2, trivial, rfl⟩

theorem findUnassigned_eq_none {g : Grid} : findUnassigned g = none ↔ isFull g := by
  constructor
  · intro h r c
    have := List.find?_eq_none.mp h (r, c) (mem_cellsList _)
    simpa using this
  · intro h
    refine List.find?_eq_none.mpr fun p _ => ?_
    simpa using h p.1 p.2

theorem findUnassigned_some {g : Grid} {p : Fin 9 × Fin 9}
    (h : findUnassigned g = some p) : g p.1 p.2 = 0 := by
  have := List.find?_some h
  simpa using this

/-! ### Characterizations of the safety predicates -/

theorem usedInRow_iff (g : Grid) (row : Fin 9) (num : Nat) :
    usedInRow g row num = true ↔ ∃ c : Fin 9, g row c = num := by
  simp [usedInRow]

theorem usedInCol_iff (g : Grid) (col : Fin 9) (num : Nat) :
    usedInCol g col num = true ↔ ∃ r : Fin 9, g r col = num := by
  simp [usedInCol]

theorem usedInBox_iff (g : Grid) (row col : Fin 9) (num : Nat) :
    usedInBox g (row.val - row.val % 3) (col.val - col.val % 3) num = true ↔
      ∃ r' c' : Fin 9, r'.val / 3 = row.val / 3 ∧ c'.val / 3 = col.val / 3 ∧
        g r' c' = num := by
  unfold usedInBox
  simp only [decide_eq_true_eq]
  constructor
  · rintro ⟨a, b, hab⟩
    refine ⟨_, _, ?_, ?_, hab⟩
    · have h1 := row.isLt; have h2 := a.isLt
      show (row.val - row.val % 3 + a.val) % 9 / 3 = row.val / 3
      omega
    · have h1 := col.isLt; have h2 := b.isLt
      show (col.val - col.val % 3 + b.val) % 9 / 3 = col.val / 3
      omega
  · rintro ⟨r', c', h1, h2, h3⟩
    refine ⟨⟨r'.val % 3, by omega⟩, ⟨c'.val % 3, by omega⟩, ?_⟩
    have hr9 := r'.isLt; have hc9 := c'.isLt
    have hrow9 := row.isLt; have hcol9 := col.isLt
    have e1 : (⟨(row.val - row.val % 3 + r'.val % 3) % 9, Nat.mod_lt _ (by omega)⟩ : Fin 9) = r' :=
      Fin.ext (by simp only []; omega)
    have e2 : (⟨(col.val - col.val % 3 + c'.val % 3) % 9, Nat.mod_lt _ (by omega)⟩ : Fin 9) = c' :=
      Fin.ext (by simp only []; omega)
    rw [e1, e2]
    exact h3

theorem isSafe_iff (g : Grid) (row col : Fin 9) (num : Nat) :
    isSafe g row col num = true ↔
      (¬ ∃ c' : Fin 9, g row c' = num) ∧ (¬ ∃ r' : Fin 9, g r' col = num) ∧
        (¬ ∃ r' c' : Fin 9, r'.val / 3 = row.val / 3 ∧ c'.val / 3 = col.val / 3 ∧
          g r' c' = num) ∧ g row col = 0 := by
  unfold isSafe
  simp only [Bool.and_eq_true, Bool.not_eq_true', decide_eq_true_eq]
  rw [← Bool.not_eq_true (usedInRow g row num), ← Bool.not_eq_true (usedInCol g col num),
    ← Bool.not_eq_true (usedInBox g _ _ num)]
  rw [usedInRow_iff, usedInCol_iff, usedInBox_iff]
  tauto

theorem isSafe_cell_zero {g : Grid} {r c : Fin 9} {num : Nat}
    (h : isSafe g r c num = true) : g r c = 0 :=
  ((isSafe_iff g r c num).mp h).2.2.2

theorem isSafe_num_ne_zero {g : Grid} {r c : Fin 9} {num : Nat}
    (h : isSafe g r c num = true) : num ≠ 0 := by
  obtain ⟨h1, -, -, h4⟩ := (isSafe_iff g r c num).mp h
  intro hn
  exact h1 ⟨c, by rw [h4, hn]⟩

/-! ### Counting empty cells -/

theorem numEmpty_setCell {g : Grid} {r c : Fin 9} {v : Nat} (h0 : g r c = 0)
    (hv : v ≠ 0) : numEmpty g = numEmpty (setCell g r c v) + 1 := by
  unfold numEmpty
  have hset : (Finset.univ.filter fun p : Fin 9 × Fin 9 => setCell g r c v p.1 p.2 = 0) =
      (Finset.univ.filter fun p : Fin 9 × Fin 9 => g p.1 p.2 = 0).erase (r, c) := by
    ext ⟨a, b⟩
    simp only [Finset.mem_erase, Finset.mem_filter, Finset.mem_univ, true_and, Ne,
      Prod.mk.injEq]
    by_cases hp : a = r ∧ b = c
    · obtain ⟨h1, h2⟩ := hp
      rw [h1, h2, setCell_same]
      simp [hv]
    · rw [setCell_other hp]
      constructor
      · intro hz
        exact ⟨fun hab => hp hab, hz⟩
      · intro hz
        exact hz.2
  rw [hset, Finset.card_erase_add_one]
  simp [h0]

theorem numEmpty_pos {g : Grid} {r c : Fin 9} (h0 : g r c = 0) : 0 < numEmpty g := by
  apply Finset.card_pos.mpr
  exact ⟨(r, c), by simp [h0]⟩

/-! ### Preservation of the no-duplicates invariant -/

theorem inRange_setCell {g : Grid} {r c : Fin 9} {v : Nat} (hg : inRange g)
    (hv : v ≤ 9) : inRange (setCell g r c v) := by
  intro r' c'
  by_cases h : r' = r ∧ c' = c
  · rw [h.1, h.2, setCell_same]; exact hv
  · rw [setCell_other h]; exact hg r' c'

theorem noDups_setCell_zero {g : Grid} (hg : noDups g) (r c : Fin 9) :
    noDups (setCell g r c 0) := by
  intro a b a' b' hconf hne h0
  by_cases h : a = r ∧ b = c
  · rw [h.1, h.2, setCell_same] at h0
    exact absurd rfl h0
  · rw [setCell_other h] at h0 ⊢
    by_cases h' : a' = r ∧ b' = c
    · rw [h'.1, h'.2, setCell_same]
      exact h0
    · rw [setCell_other h']
      exact hg a b a' b' hconf hne h0

theorem noDups_setCell_safe {g : Grid} {r c : Fin 9} {num : Nat} (hg : noDups g)
    (hs : isSafe g r c num = true) : noDups (setCell g r c num) := by
  obtain ⟨hrow, hcol, hbox, hzero⟩ := (isSafe_iff g r c num).mp hs
  have hother : ∀ a b : Fin 9, conflict a b r c → g a b ≠ num := by
    intro a b hconf he
    rcases hconf with h | h | h
    · exact hrow ⟨b, h ▸ he⟩
    · exact hcol ⟨a, h ▸ he⟩
    · exact hbox ⟨a, b, h.1, h.2, he⟩
  intro a b a' b' hconf hne h0
  by_cases h : a = r ∧ b = c
  · rw [h.1, h.2, setCell_same]
    have h' : ¬(a' = r ∧ b' = c) := by
      intro hh
      apply hne
      rw [h.1, h.2, hh.1, hh.2]
    rw [setCell_other h']
    intro he
    refine hother a' b' ?_ he.symm
    rcases hconf with hc | hc | hc
    · exact Or.inl (by rw [← hc, h.1])
    · exact Or.inr (Or.inl (by rw [← hc, h.2]))
    · exact Or.inr (Or.inr ⟨by rw [← hc.1, h.1], by rw [← hc.2, h.2]⟩)
  · rw [setCell_other h] at h0 ⊢
    by_cases h' : a' = r ∧ b' = c
    · rw [h'.1, h'.2, setCell_same]
      refine hother a b ?_
      rcases hconf with hc | hc | hc
      · exact Or.inl (by rw [hc, h'.1])
      · exact Or.inr (Or.inl (by rw [hc, h'.2]))
      · exact Or.inr (Or.inr ⟨by rw [hc.1, h'.1], by rw [hc.2, h'.2]⟩)
    · rw [setCell_other h']
      exact hg a b a' b' hconf hne h0

/-! ### The set of completions -/

theorem mem_sols {h : FullGrid} {g : Grid} : h ∈ sols g ↔ completes h g ∧ goodFull h := by
  simp [sols]

theorem toGrid_ne_zero (h : FullGrid) (r c : Fin 9) : toGrid h r c ≠ 0 := by
  simp [toGrid]

theorem toGrid_le_nine (h : FullGrid) (r c : Fin 9) : toGrid h r c ≤ 9 := by
  have := (h r c).isLt
  simp only [toGrid]
  omega

theorem toGrid_toFull {g : Grid} (hfull : isFull g) (hrange : inRange g) :
    toGrid (toFull g) = g := by
  funext r c
  have h1 := hfull r c
  have h2 := hrange r c
  simp only [toGrid, toFull]
  omega

theorem sols_of_full {g : Grid} (hfull : isFull g) (hrange : inRange g)
    (hnd : noDups g) : sols g = {toFull g} := by
  ext h
  rw [mem_sols, Finset.mem_singleton]
  constructor
  · rintro ⟨hc, -⟩
    funext r c
    apply Fin.ext
    have := hc r c (hfull r c)
    have h2 := hrange r c
    have h1 := hfull r c
    simp only [toGrid] at this
    simp only [toFull]
    omega
  · rintro rfl
    refine ⟨?_, ?_⟩
    · intro r c hrc
      rw [toGrid_toFull hfull hrange]
    · unfold goodFull
      rw [toGrid_toFull hfull hrange]
      exact hnd

theorem numSols_of_full {g : Grid} (hfull : isFull g) (hrange : inRange g)
    (hnd : noDups g) : numSols g = 1 := by
  rw [numSols, sols_of_full hfull hrange hnd, Finset.card_singleton]

theorem completes_setCell_iff {h : FullGrid} {g : Grid} {r c : Fin 9}
    (h0 : g r c = 0) {d : Nat} (hd : d ≠ 0) :
    completes h (setCell g r c d) ↔ completes h g ∧ toGrid h r c = d := by
  constructor
  · intro hc
    refine ⟨?_, ?_⟩
    · intro a b hab
      have hne : ¬(a = r ∧ b = c) := fun hh => by
        rw [hh.1, hh.2] at hab
        exact hab h0
      have := hc a b (by rw [setCell_other hne]; exact hab)
      rw [setCell_other hne] at this
      exact this
    · have := hc r c (by rw [setCell_same]; exact hd)
      rw [setCell_same] at this
      exact this
  · rintro ⟨hc, hrc⟩
    intro a b hab
    by_cases hh : a = r ∧ b = c
    · rw [hh.1, hh.2, setCell_same]
      exact hrc
    · rw [setCell_other hh] at hab ⊢
      exact hc a b hab

theorem sols_decomp {g : Grid} {r c : Fin 9} (h0 : g r c = 0) :
    sols g = (Finset.Icc 1 9).biUnion fun d => sols (setCell g r c d) := by
  ext h
  simp only [Finset.mem_biUnion, Finset.mem_Icc, mem_sols]
  constructor
  · rintro ⟨hc, hgood⟩
    refine ⟨(h r c).val + 1, ⟨by omega, by have := (h r c).isLt; omega⟩, ?_, hgood⟩
    rw [completes_setCell_iff h0 (by omega)]
    exact ⟨hc, rfl⟩
  · rintro ⟨d, ⟨hd1, _⟩, hc, hgood⟩
    rw [completes_setCell_iff h0 (by omega)] at hc
    exact ⟨hc.1, hgood⟩

theorem numSols_decomp {g : Grid} {r c : Fin 9} (h0 : g r c = 0) :
    numSols g = ∑ d in Finset.Icc 1 9, numSols (setCell g r c d) := by
  rw [numSols, sols_decomp h0]
  apply Finset.card_biUnion
  intro x hx y hy hxy
  rw [Finset.mem_Icc] at hx hy
  rw [Finset.disjoint_left]
  intro h hxmem hymem
  rw [mem_sols] at hxmem hymem
  rw [completes_setCell_iff h0 (by omega)] at hxmem
  rw [completes_setCell_iff h0 (by omega)] at hymem
  exact hxy (hxmem.1.2.symm.trans hymem.1.2)

theorem safe_of_sols_nonempty {g : Grid} {r c : Fin 9} {num : Nat}
    (h0 : g r c = 0) (hnum : num ≠ 0)
    (hne : (sols (setCell g r c num)).Nonempty) : isSafe g r c num = true := by
  obtain ⟨h, hmem⟩ := hne
  rw [mem_sols] at hmem
  obtain ⟨hc, hgood⟩ := hmem
  rw [completes_setCell_iff h0 hnum] at hc
  obtain ⟨hcg, hrc⟩ := hc
  rw [isSafe_iff]
  refine ⟨?_, ?_, ?_, h0⟩
  · rintro ⟨c', hc'⟩
    have hcc : c' ≠ c := fun hh => by
      rw [hh, h0] at hc'
      exact hnum hc'.symm
    have e1 := hcg r c' (by rw [hc']; exact hnum)
    refine hgood r c r c' (Or.inl rfl) ?_ (toGrid_ne_zero h r c)
      (hrc.trans (e1.trans hc').symm)
    intro hp
    exact hcc ((Prod.ext_iff.mp hp).2.symm)
  · rintro ⟨r', hr'⟩
    have hrr : r' ≠ r := fun hh => by
      rw [hh, h0] at hr'
      exact hnum hr'.symm
    have e1 := hcg r' c (by rw [hr']; exact hnum)
    refine hgood r c r' c (Or.inr (Or.inl rfl)) ?_ (toGrid_ne_zero h r c)
      (hrc.trans (e1.trans hr').symm)
    intro hp
    exact hrr ((Prod.ext_iff.mp hp).1.symm)
  · rintro ⟨a, b, hb1, hb2, hb3⟩
    have hab : ¬((r, c) = (a, b)) := fun hp => by
      injection hp with h1 h2
      rw [← h1, ← h2, h0] at hb3
      exact hnum hb3.symm
    have e1 := hcg a b (by rw [hb3]; exact hnum)
    exact hgood r c a b (Or.inr (Or.inr ⟨hb1.symm, hb2.symm⟩)) hab
      (toGrid_ne_zero h r c) (hrc.trans (e1.trans hb3).symm)

theorem numSols_zero_of_blocked {g : Grid} {r c : Fin 9} {num : Nat}
    (h0 : g r c = 0) (hnum : num ≠ 0) (hblocked : ¬ isSafe g r c num = true) :
    numSols (setCell g r c num) = 0 := by
  rw [numSols, Finset.card_eq_zero]
  by_contra hne
  exact hblocked
    (safe_of_sols_nonempty h0 hnum (Finset.nonempty_iff_ne_empty.mpr hne))

/-! ### The shuffled digit order is an arrangement of 1..9 -/

theorem swapFn_eq_comp {n : Nat} (out : Fin n → Nat) (i j : Fin n) :
    swapFn out i j = out ∘ (Equiv.swap i j) := by
  funext k
  simp only [swapFn, Function.comp_apply]
  by_cases hk : k = j
  · subst hk
    rw [Function.update_same, Equiv.swap_apply_right]
  · rw [Function.update_noteq hk]
    by_cases hk' : k = i
    · subst hk'
      rw [Function.update_same, Equiv.swap_apply_left]
    · rw [Function.update_noteq hk', Equiv.swap_apply_of_ne_of_ne hk' hk]

theorem fisherYatesGo_comp {n : Nat} (f0 : Fin (n + 1) → Nat) :
    ∀ (k : Nat) (σ : Equiv.Perm (Fin (n + 1))) (s : Rng),
      ∃ τ : Equiv.Perm (Fin (n + 1)), (fisherYatesGo k (f0 ∘ σ) s).1 = f0 ∘ τ := by
  intro k
  induction k with
  | zero => exact fun σ s => ⟨σ, rfl⟩
  | succ i ih =>
    intro σ s
    simp only [fisherYatesGo]
    rw [swapFn_eq_comp]
    exact ih ((Equiv.swap _ _).trans σ) _

theorem shuffledDigits_spec (s : Rng) :
    ∃ τ : Equiv.Perm (Fin 9),
      (shuffledDigits s).1 = (List.finRange 9).map fun m => (τ m).val + 1 := by
  have h0 : (fun k : Fin 9 => k.val + 1) =
      (fun k : Fin 9 => k.val + 1) ∘ (Equiv.refl (Fin 9)) := rfl
  obtain ⟨τ, hτ⟩ :=
    fisherYatesGo_comp (n := 8) (fun k : Fin 9 => k.val + 1) 8 (Equiv.refl (Fin 9)) s
  refine ⟨τ, ?_⟩
  simp only [shuffledDigits]
  rw [h0, hτ]
  rfl

theorem shuffledDigits_mem {s : Rng} {x : Nat} (hx : x ∈ (shuffledDigits s).1) :
    1 ≤ x ∧ x ≤ 9 := by
  obtain ⟨τ, hτ⟩ := shuffledDigits_spec s
  rw [hτ] at hx
  simp only [List.mem_map, List.mem_finRange, true_and] at hx
  obtain ⟨m, rfl⟩ := hx
  have := (τ m).isLt
  omega

theorem shuffledDigits_nodup (s : Rng) : (shuffledDigits s).1.Nodup := by
  obtain ⟨τ, hτ⟩ := shuffledDigits_spec s
  rw [hτ]
  refine List.Nodup.map ?_ (List.nodup_finRange 9)
  intro a b hab
  simp only at hab
  exact τ.injective (Fin.ext (by omega))

theorem shuffledDigits_complete {s : Rng} {d : Nat} (h1 : 1 ≤ d) (h9 : d ≤ 9) :
    d ∈ (shuffledDigits s).1 := by
  obtain ⟨τ, hτ⟩ := shuffledDigits_spec s
  rw [hτ, List.mem_map]
  refine ⟨τ.symm ⟨d - 1, by omega⟩, List.mem_finRange _, ?_⟩
  show (τ (τ.symm ⟨d - 1, by omega⟩)).val + 1 = d
  rw [Equiv.apply_symm_apply]
  show d - 1 + 1 = d
  omega

/-! ### The backtracking solver -/

theorem tryDigits_grid_eq {recur : Grid → Rng → Bool × Grid × Rng} {r c : Fin 9}
    (hrec : ∀ g s, (recur g s).1 = false → (recur g s).2.1 = g) :
    ∀ (order : List Nat) (g : Grid) (s : Rng),
      (tryDigits recur r c g order s).1 = false →
      (tryDigits recur r c g order s).2.1 = g := by
  intro order
  induction order with
  | nil => intro g s _; rfl
  | cons num rest ih =>
    intro g s hfalse
    simp only [tryDigits] at hfalse ⊢
    by_cases hs : isSafe g r c num = true
    · rw [if_pos hs] at hfalse ⊢
      by_cases hb : (recur (setCell g r c num) s).1 = true
      · rw [if_pos hb] at hfalse
        rw [hb] at hfalse
        exact Bool.noConfusion hfalse
      · rw [if_neg hb] at hfalse ⊢
        have hres : (recur (setCell g r c num) s).2.1 = setCell g r c num :=
          hrec _ _ (by simpa using hb)
        rw [hres, setCell_setCell, setCell_self g r c (isSafe_cell_zero hs)] at hfalse ⊢
        exact ih _ _ hfalse
    · rw [if_neg hs] at hfalse ⊢
      exact ih _ _ hfalse

theorem solveSudokuF_grid_eq : ∀ (fuel : Nat) (g : Grid) (s : Rng),
    (solveSudokuF fuel g s).1 = false → (solveSudokuF fuel g s).2.1 = g := by
  intro fuel
  induction fuel with
  | zero => intro g s _; rfl
  | succ fuel ih =>
    intro g s hfalse
    simp only [solveSudokuF] at hfalse ⊢
    cases hfind : findUnassigned g with
    | none => rw [hfind] at hfalse
    | some p =>
      rcases p with ⟨r, c⟩
      rw [hfind] at hfalse
      exact tryDigits_grid_eq ih _ _ _ hfalse

theorem fillGridF_eq_solveSudokuF : ∀ (fuel : Nat) (g : Grid) (s : Rng),
    fillGridF fuel g s = solveSudokuF fuel g s := by
  intro fuel
  induction fuel with
  | zero => intro g s; rfl
  | succ fuel ih =>
    intro g s
    have hfun : fillGridF fuel = solveSudokuF fuel :=
      funext fun g' => funext fun s' => ih g' s'
    simp only [fillGridF, solveSudokuF, hfun]

theorem tryDigits_preserve {recur : Grid → Rng → Bool × Grid × Rng} {r c : Fin 9}
    (hrecP : ∀ g s a b, g a b ≠ 0 → (recur g s).2.1 a b = g a b)
    (hrecF : ∀ g s, (recur g s).1 = false → (recur g s).2.1 = g) :
    ∀ (order : List Nat) (g : Grid) (s : Rng) (a b : Fin 9), g a b ≠ 0 →
      (tryDigits recur r c g order s).2.1 a b = g a b := by
  intro order
  induction order with
  | nil => intro g s a b _; rfl
  | cons num rest ih =>
    intro g s a b hab
    simp only [tryDigits]
    by_cases hs : isSafe g r c num = true
    · rw [if_pos hs]
      have hne : ¬(a = r ∧ b = c) := by
        intro hh
        rw [hh.1, hh.2, isSafe_cell_zero hs] at hab
        exact hab rfl
      by_cases hb : (recur (setCell g r c num) s).1 = true
      · rw [if_pos hb]
        have h1 : setCell g r c num a b ≠ 0 := by
          rw [setCell_other hne]
          exact hab
        have := hrecP (setCell g r c num) s a b h1
        rw [this, setCell_other hne]
      · rw [if_neg hb]
        have hres : (recur (setCell g r c num) s).2.1 = setCell g r c num :=
          hrecF _ _ (by simpa using hb)
        rw [hres, setCell_setCell, setCell_self g r c (isSafe_cell_zero hs)]
        exact ih _ _ a b hab
    · rw [if_neg hs]
      exact ih _ _ a b hab

theorem solveSudokuF_preserve : ∀ (fuel : Nat) (g : Grid) (s : Rng) (a b : Fin 9),
    g a b ≠ 0 → (solveSudokuF fuel g s).2.1 a b = g a b := by
  intro fuel
  induction fuel with
  | zero => intro g s a b _; rfl
  | succ fuel ih =>
    intro g s a b hab
    simp only [solveSudokuF]
    cases hfind : findUnassigned g with
    | none => rfl
    | some p =>
      rcases p with ⟨r, c⟩
      exact tryDigits_preserve (fun g' s' => ih g' s') (solveSudokuF_grid_eq fuel)
        _ _ _ a b hab

theorem tryDigits_true_exists {recur : Grid → Rng → Bool × Grid × Rng} {r c : Fin 9}
    (hrecF : ∀ g s, (recur g s).1 = false → (recur g s).2.1 = g) :
    ∀ (order : List Nat) (g : Grid) (s : Rng),
      (tryDigits recur r c g order s).1 = true →
      ∃ num s', num ∈ order ∧ isSafe g r c num = true ∧
        tryDigits recur r c g order s = recur (setCell g r c num) s' := by
  intro order
  induction order with
  | nil => intro g s h; exact Bool.noConfusion h
  | cons num rest ih =>
    intro g s htrue
    simp only [tryDigits] at htrue ⊢
    by_cases hs : isSafe g r c num = true
    · rw [if_pos hs] at htrue ⊢
      by_cases hb : (recur (setCell g r c num) s).1 = true
      · rw [if_pos hb] at htrue ⊢
        exact ⟨num, s, List.mem_cons_self num rest, hs, rfl⟩
      · rw [if_neg hb] at htrue ⊢
        have hres : (recur (setCell g r c num) s).2.1 = setCell g r c num :=
          hrecF _ _ (by simpa using hb)
        rw [hres, setCell_setCell, setCell_self g r c (isSafe_cell_zero hs)] at htrue ⊢
        obtain ⟨num', s', hmem, hs', heq⟩ := ih _ _ htrue
        exact ⟨num', s', List.mem_cons_of_mem num hmem, hs', heq⟩
    · rw [if_neg hs] at htrue ⊢
      obtain ⟨num', s', hmem, hs', heq⟩ := ih _ _ htrue
      exact ⟨num', s', List.mem_cons_of_mem num hmem, hs', heq⟩

theorem solveSudokuF_true_full : ∀ (fuel : Nat) (g : Grid) (s : Rng),
    (solveSudokuF fuel g s).1 = true → isFull (solveSudokuF fuel g s).2.1 := by
  intro fuel
  induction fuel with
  | zero => intro g s h; exact Bool.noConfusion h
  | succ fuel ih =>
    intro g s htrue
    simp only [solveSudokuF] at htrue ⊢
    cases hfind : findUnassigned g with
    | none => exact findUnassigned_eq_none.mp hfind
    | some p =>
      rcases p with ⟨r, c⟩
      rw [hfind] at htrue
      replace htrue : (tryDigits (solveSudokuF fuel) r c g
          (shuffledDigits s).1 (shuffledDigits s).2).1 = true := htrue
      show isFull (tryDigits (solveSudokuF fuel) r c g
        (shuffledDigits s).1 (shuffledDigits s).2).2.1
      obtain ⟨num, s', hmem, hs, heq⟩ :=
        tryDigits_true_exists (solveSudokuF_grid_eq fuel) _ _ _ htrue
      rw [heq] at htrue ⊢
      exact ih _ _ htrue

theorem solveSudokuF_true_noDups : ∀ (fuel : Nat) (g : Grid) (s : Rng),
    noDups g → (solveSudokuF fuel g s).1 = true →
    noDups (solveSudokuF fuel g s).2.1 := by
  intro fuel
  induction fuel with
  | zero => intro g s _ h; exact Bool.noConfusion h
  | succ fuel ih =>
    intro g s hnd htrue
    simp only [solveSudokuF] at htrue ⊢
    cases hfind : findUnassigned g with
    | none => exact hnd
    | some p =>
      rcases p with ⟨r, c⟩
      rw [hfind] at htrue
      replace htrue : (tryDigits (solveSudokuF fuel) r c g
          (shuffledDigits s).1 (shuffledDigits s).2).1 = true := htrue
      show noDups (tryDigits (solveSudokuF fuel) r c g
        (shuffledDigits s).1 (shuffledDigits s).2).2.1
      obtain ⟨num, s', hmem, hs, heq⟩ :=
        tryDigits_true_exists (solveSudokuF_grid_eq fuel) _ _ _ htrue
      rw [heq] at htrue ⊢
      exact ih _ _ (noDups_setCell_safe hnd hs) htrue

theorem solveSudokuF_true_inRange : ∀ (fuel : Nat) (g : Grid) (s : Rng),
    inRange g → (solveSudokuF fuel g s).1 = true →
    inRange (solveSudokuF fuel g s).2.1 := by
  intro fuel
  induction fuel with
  | zero => intro g s _ h; exact Bool.noConfusion h
  | succ fuel ih =>
    intro g s hir htrue
    simp only [solveSudokuF] at htrue ⊢
    cases hfind : findUnassigned g with
    | none => exact hir
    | some p =>
      rcases p with ⟨r, c⟩
      rw [hfind] at htrue
      replace htrue : (tryDigits (solveSudokuF fuel) r c g
          (shuffledDigits s).1 (shuffledDigits s).2).1 = true := htrue
      show inRange (tryDigits (solveSudokuF fuel) r c g
        (shuffledDigits s).1 (shuffledDigits s).2).2.1
      obtain ⟨num, s', hmem, hs, heq⟩ :=
        tryDigits_true_exists (solveSudokuF_grid_eq fuel) _ _ _ htrue
      rw [heq] at htrue ⊢
      exact ih _ _ (inRange_setCell hir (shuffledDigits_mem hmem).2) htrue

theorem tryDigits_complete {recur : Grid → Rng → Bool × Grid × Rng} {r c : Fin 9}
    {g : Grid}
    (hrecF : ∀ g' s', (recur g' s').1 = false → (recur g' s').2.1 = g')
    (hrecC : ∀ num s', num ≠ 0 → (sols (setCell g r c num)).Nonempty →
      (recur (setCell g r c num) s').1 = true)
    (h0 : g r c = 0) :
    ∀ (order : List Nat) (s : Rng), (∀ x ∈ order, x ≠ 0) →
      (∃ num, num ∈ order ∧ (sols (setCell g r c num)).Nonempty) →
      (tryDigits recur r c g order s).1 = true := by
  intro order
  induction order with
  | nil =>
    rintro s _ ⟨num, hmem, -⟩
    exact absurd hmem (List.not_mem_nil num)
  | cons num rest ih =>
    rintro s hall ⟨d, hdmem, hdsols⟩
    have hdne : d ≠ 0 := hall d hdmem
    simp only [tryDigits]
    by_cases hs : isSafe g r c num = true
    · rw [if_pos hs]
      by_cases hb : (recur (setCell g r c num) s).1 = true
      · rw [if_pos hb]
        exact hb
      · rw [if_neg hb]
        have hres : (recur (setCell g r c num) s).2.1 = setCell g r c num :=
          hrecF _ _ (by simpa using hb)
        rw [hres, setCell_setCell, setCell_self g r c (isSafe_cell_zero hs)]
        rcases List.mem_cons.mp hdmem with hcase | hcase
        · exfalso
          rw [← hcase] at hb
          exact hb (hrecC d _ hdne hdsols)
        · exact ih _ (fun x hx => hall x (List.mem_cons_of_mem num hx))
            ⟨d, hcase, hdsols⟩
    · rw [if_neg hs]
      rcases List.mem_cons.mp hdmem with hcase | hcase
      · exfalso
        rw [← hcase] at hs
        exact hs (safe_of_sols_nonempty h0 hdne hdsols)
      · exact ih _ (fun x hx => hall x (List.mem_cons_of_mem num hx))
          ⟨d, hcase, hdsols⟩

theorem solveSudokuF_complete : ∀ (fuel : Nat) (g : Grid) (s : Rng),
    numEmpty g < fuel → (sols g).Nonempty → (solveSudokuF fuel g s).1 = true := by
  intro fuel
  induction fuel with
  | zero => intro g s hlt _; exact absurd hlt (Nat.not_lt_zero _)
  | succ fuel ih =>
    intro g s hlt hsols
    simp only [solveSudokuF]
    cases hfind : findUnassigned g with
    | none => rfl
    | some p =>
      rcases p with ⟨r, c⟩
      have h0 : g r c = 0 := findUnassigned_some hfind
      obtain ⟨h, hmem⟩ := hsols
      rw [mem_sols] at hmem
      have hd9 := (h r c).isLt
      refine tryDigits_complete (solveSudokuF_grid_eq fuel) ?_ h0 _ _ ?_ ?_
      · intro num s' hnum hne
        apply ih
        · have := numEmpty_setCell h0 hnum
          omega
        · exact hne
      · intro x hx
        have := (shuffledDigits_mem hx).1
        omega
      · refine ⟨(h r c).val + 1, shuffledDigits_complete (by omega) (by omega), h, ?_⟩
        rw [mem_sols, completes_setCell_iff h0 (by omega)]
        exact ⟨⟨hmem.1, rfl⟩, hmem.2⟩

/-! ### The bounded solution counter -/

theorem countTryDigits_grid_eq {recur : Grid → Nat → Rng → Nat × Grid × Rng}
    {r c : Fin 9} {limit : Nat}
    (hrec : ∀ g cnt s, (recur g cnt s).2.1 = g) :
    ∀ (order : List Nat) (g : Grid) (cnt : Nat) (s : Rng),
      (countTryDigits recur r c limit g order cnt s).2.1 = g := by
  intro order
  induction order with
  | nil => intro g cnt s; rfl
  | cons num rest ih =>
    intro g cnt s
    simp only [countTryDigits]
    by_cases hs : isSafe g r c num = true
    · rw [if_pos hs]
      by_cases hl : limit ≤ (recur (setCell g r c num) cnt s).1
      · rw [if_pos hl]
        show setCell (recur (setCell g r c num) cnt s).2.1 r c 0 = g
        rw [hrec, setCell_setCell, setCell_self g r c (isSafe_cell_zero hs)]
      · rw [if_neg hl]
        rw [hrec, setCell_setCell, setCell_self g r c (isSafe_cell_zero hs)]
        exact ih _ _ _
    · rw [if_neg hs]
      exact ih _ _ _

theorem countSolutionsDFS_grid_eq : ∀ (fuel : Nat) (g : Grid) (cnt limit : Nat)
    (s : Rng), (countSolutionsDFS fuel g cnt limit s).2.1 = g := by
  intro fuel
  induction fuel with
  | zero => intro g cnt limit s; rfl
  | succ fuel ih =>
    intro g cnt limit s
    simp only [countSolutionsDFS]
    by_cases hl : limit ≤ cnt
    · rw [if_pos hl]
    · rw [if_neg hl]
      cases hfind : findUnassigned g with
      | none => rfl
      | some p =>
        rcases p with ⟨r, c⟩
        exact countTryDigits_grid_eq (fun g' cnt' s' => ih g' cnt' limit s') _ _ _ _

theorem countTryDigits_count {recur : Grid → Nat → Rng → Nat × Grid × Rng}
    {r c : Fin 9} {limit : Nat} {g : Grid}
    (hrecG : ∀ g' cnt' s', (recur g' cnt' s').2.1 = g')
    (hrecM : ∀ num cnt' s', cnt' ≤ limit → num ≤ 9 → isSafe g r c num = true →
      (recur (setCell g r c num) cnt' s').1 =
        min (cnt' + numSols (setCell g r c num)) limit)
    (h0 : g r c = 0) :
    ∀ (order : List Nat) (cnt : Nat) (s : Rng), cnt ≤ limit →
      (∀ x ∈ order, 1 ≤ x ∧ x ≤ 9) →
      (countTryDigits recur r c limit g order cnt s).1 =
        min (cnt + (order.map fun d => numSols (setCell g r c d)).sum) limit := by
  intro order
  induction order with
  | nil =>
    intro cnt s hcnt _
    simp only [List.map_nil, List.sum_nil]
    show cnt = min (cnt + 0) limit
    omega
  | cons num rest ih =>
    intro cnt s hcnt hall
    have hnum := hall num (List.mem_cons_self num rest)
    simp only [countTryDigits, List.map_cons, List.sum_cons]
    by_cases hs : isSafe g r c num = true
    · rw [if_pos hs]
      have hcnt1 := hrecM num cnt s hcnt hnum.2 hs
      by_cases hl : limit ≤ (recur (setCell g r c num) cnt s).1
      · rw [if_pos hl]
        show (recur (setCell g r c num) cnt s).1 = _
        rw [hcnt1] at hl ⊢
        omega
      · rw [if_neg hl]
        rw [hrecG, setCell_setCell, setCell_self g r c h0]
        have hlt : (recur (setCell g r c num) cnt s).1 < limit := Nat.not_le.mp hl
        have heq : (recur (setCell g r c num) cnt s).1 =
            cnt + numSols (setCell g r c num) := by
          rw [hcnt1] at hlt ⊢
          omega
        rw [ih _ _ (le_of_lt hlt)
          (fun x hx => hall x (List.mem_cons_of_mem num hx)), heq]
        omega
    · rw [if_neg hs]
      have hzero : numSols (setCell g r c num) = 0 :=
        numSols_zero_of_blocked h0 (by omega) hs
      rw [ih _ _ hcnt (fun x hx => hall x (List.mem_cons_of_mem num hx)), hzero]
      omega

theorem sum_shuffled_numSols {g : Grid} {r c : Fin 9} (h0 : g r c = 0) (s : Rng) :
    (((shuffledDigits s).1.map fun d => numSols (setCell g r c d)).sum) =
      numSols g := by
  have hnodup := shuffledDigits_nodup s
  have htf : (shuffledDigits s).1.toFinset = Finset.Icc 1 9 := by
    ext x
    rw [List.mem_toFinset, Finset.mem_Icc]
    constructor
    · exact fun hx => shuffledDigits_mem hx
    · exact fun hx => shuffledDigits_complete hx.1 hx.2
  rw [← List.sum_toFinset _ hnodup, htf, ← numSols_decomp h0]

theorem countSolutionsDFS_count : ∀ (fuel : Nat) (g : Grid) (cnt limit : Nat)
    (s : Rng), numEmpty g < fuel → cnt ≤ limit → inRange g → noDups g →
    (countSolutionsDFS fuel g cnt limit s).1 = min (cnt + numSols g) limit := by
  intro fuel
  induction fuel with
  | zero => intro g cnt limit s hfuel _ _ _; exact absurd hfuel (Nat.not_lt_zero _)
  | succ fuel ih =>
    intro g cnt limit s hfuel hcnt hir hnd
    simp only [countSolutionsDFS]
    by_cases hl : limit ≤ cnt
    · rw [if_pos hl]
      show cnt = min (cnt + numSols g) limit
      omega
    · rw [if_neg hl]
      cases hfind : findUnassigned g with
      | none =>
        have hfull := findUnassigned_eq_none.mp hfind
        have h1 := numSols_of_full hfull hir hnd
        show cnt + 1 = min (cnt + numSols g) limit
        rw [h1]
        omega
      | some p =>
        rcases p with ⟨r, c⟩
        have h0 : g r c = 0 := findUnassigned_some hfind
        show (countTryDigits (fun g' cnt' s' => countSolutionsDFS fuel g' cnt' limit s')
          r c limit g (shuffledDigits s).1 cnt (shuffledDigits s).2).1 = _
        rw [countTryDigits_count (fun g' cnt' s' => countSolutionsDFS_grid_eq fuel g' cnt' limit s')
          ?_ h0 _ cnt _ hcnt (fun x hx => shuffledDigits_mem hx)]
        · rw [sum_shuffled_numSols h0]
        · intro num cnt' s' hcle hnum9 hsafe
          have hne := numEmpty_setCell h0 (isSafe_num_ne_zero hsafe)
          exact ih _ _ _ _ (by omega) hcle (inRange_setCell hir hnum9)
            (noDups_setCell_safe hnd hsafe)

theorem countSolutions_count {g : Grid} {limit : Nat} (s : Rng) (hir : inRange g)
    (hnd : noDups g) : (countSolutions g limit s).1 = min (numSols g) limit := by
  show (countSolutionsDFS (numEmpty g + 1) (fun r c => g r c) 0 limit s).1 = _
  have hg : (fun r c => g r c) = g := rfl
  rw [hg, countSolutionsDFS_count (numEmpty g + 1) g 0 limit s (by omega)
    (Nat.zero_le _) hir hnd]
  simp

/-! ### Full valid grids are Latin squares with the box property -/

theorem all_eq_of_sum_eq {α : Type*} {s : Finset α} {f : α → Nat} {k : Nat}
    (h1 : ∀ i ∈ s, f i ≤ k) (h2 : s.card * k ≤ ∑ i in s, f i) :
    ∀ i ∈ s, f i = k := by
  intro i hi
  by_contra hne
  have hlt : f i < k := lt_of_le_of_ne (h1 i hi) hne
  have hsum : ∑ j in s, f j < ∑ j in s, k := Finset.sum_lt_sum h1 ⟨i, hi, hlt⟩
  rw [Finset.sum_const, smul_eq_mul] at hsum
  omega

theorem rowCount_le_one {g : Grid} (hnd : noDups g) (r : Fin 9) {d : Nat}
    (hd : d ≠ 0) : rowCount g r d ≤ 1 := by
  unfold rowCount
  apply Finset.card_le_one.mpr
  intro a ha b hb
  rw [Finset.mem_filter] at ha hb
  by_contra hab
  exact hnd r a r b (Or.inl rfl)
    (fun hp => hab (congrArg Prod.snd hp)) (by rw [ha.2]; exact hd)
    (ha.2.trans hb.2.symm)

theorem colCount_le_one {g : Grid} (hnd : noDups g) (c : Fin 9) {d : Nat}
    (hd : d ≠ 0) : colCount g c d ≤ 1 := by
  unfold colCount
  apply Finset.card_le_one.mpr
  intro a ha b hb
  rw [Finset.mem_filter] at ha hb
  by_contra hab
  exact hnd a c b c (Or.inr (Or.inl rfl))
    (fun hp => hab (congrArg Prod.fst hp)) (by rw [ha.2]; exact hd)
    (ha.2.trans hb.2.symm)

theorem boxCount_le_one {g : Grid} (hnd : noDups g) (br bc : Fin 3) {d : Nat}
    (hd : d ≠ 0) : boxCount g br bc d ≤ 1 := by
  unfold boxCount
  apply Finset.card_le_one.mpr
  intro a ha b hb
  rw [Finset.mem_filter] at ha hb
  by_contra hab
  exact hnd a.1 a.2 b.1 b.2
    (Or.inr (Or.inr ⟨ha.2.1.trans hb.2.1.symm, ha.2.2.1.trans hb.2.2.1.symm⟩))
    (by simpa using hab) (by rw [ha.2.2.2]; exact hd)
    (ha.2.2.2.trans hb.2.2.2.symm)

theorem card_digit_fiber_rows (g : Grid) (d : Nat) :
    (Finset.univ.filter fun p : Fin 9 × Fin 9 => g p.1 p.2 = d).card =
      ∑ r : Fin 9, rowCount g r d := by
  rw [Finset.card_eq_sum_card_fiberwise (f := Prod.fst) (t := Finset.univ)
    (fun x _ => Finset.mem_univ _)]
  refine Finset.sum_congr rfl fun r _ => ?_
  unfold rowCount
  refine Finset.card_bij (fun p _ => p.2) ?_ ?_ ?_
  · intro p hp
    rw [Finset.mem_filter, Finset.mem_filter] at hp
    rw [Finset.mem_filter]
    refine ⟨Finset.mem_univ _, ?_⟩
    show g r p.2 = d
    rw [← hp.2]
    exact hp.1.2
  · intro p1 hp1 p2 hp2 hp
    rw [Finset.mem_filter] at hp1 hp2
    exact Prod.ext (hp1.2.trans hp2.2.symm) hp
  · intro b hb
    rw [Finset.mem_filter] at hb
    refine ⟨(r, b), ?_, rfl⟩
    rw [Finset.mem_filter, Finset.mem_filter]
    exact ⟨⟨Finset.mem_univ _, hb.2⟩, rfl⟩

theorem card_digit_fiber_cols (g : Grid) (d : Nat) :
    (Finset.univ.filter fun p : Fin 9 × Fin 9 => g p.1 p.2 = d).card =
      ∑ c : Fin 9, colCount g c d := by
  rw [Finset.card_eq_sum_card_fiberwise (f := Prod.snd) (t := Finset.univ)
    (fun x _ => Finset.mem_univ _)]
  refine Finset.sum_congr rfl fun c _ => ?_
  unfold colCount
  refine Finset.card_bij (fun p _ => p.1) ?_ ?_ ?_
  · intro p hp
    rw [Finset.mem_filter, Finset.mem_filter] at hp
    rw [Finset.mem_filter]
    refine ⟨Finset.mem_univ _, ?_⟩
    show g p.1 c = d
    rw [← hp.2]
    exact hp.1.2
  · intro p1 hp1 p2 hp2 hp
    rw [Finset.mem_filter] at hp1 hp2
    exact Prod.ext hp (hp1.2.trans hp2.2.symm)
  · intro b hb
    rw [Finset.mem_filter] at hb
    refine ⟨(b, c), ?_, rfl⟩
    rw [Finset.mem_filter, Finset.mem_filter]
    exact ⟨⟨Finset.mem_univ _, hb.2⟩, rfl⟩

theorem card_digit_fiber_boxes (g : Grid) (d : Nat) :
    (Finset.univ.filter fun p : Fin 9 × Fin 9 => g p.1 p.2 = d).card =
      ∑ b : Fin 3 × Fin 3, boxCount g b.1 b.2 d := by
  rw [Finset.card_eq_sum_card_fiberwise (f := boxOf) (t := Finset.univ)
    (fun x _ => Finset.mem_univ _)]
  refine Finset.sum_congr rfl fun b _ => ?_
  unfold boxCount
  congr 1
  ext p
  simp only [Finset.mem_filter, Finset.mem_univ, true_and]
  constructor
  · rintro ⟨h1, h2⟩
    have e1 : boxOf p = b := h2
    rw [Prod.ext_iff] at e1
    exact ⟨congrArg Fin.val e1.1, congrArg Fin.val e1.2, h1⟩
  · rintro ⟨h1, h2, h3⟩
    refine ⟨h3, ?_⟩
    show boxOf p = b
    unfold boxOf
    rw [Prod.ext_iff]
    exact ⟨Fin.ext h1, Fin.ext h2⟩

theorem sum_digit_fibers {g : Grid} (hfull : isFull g) (hir : inRange g) :
    ∑ d in Finset.Icc 1 9,
      (Finset.univ.filter fun p : Fin 9 × Fin 9 => g p.1 p.2 = d).card = 81 := by
  have hmem : ∀ p : Fin 9 × Fin 9, p ∈ (Finset.univ : Finset (Fin 9 × Fin 9)) →
      g p.1 p.2 ∈ Finset.Icc 1 9 := by
    intro p _
    rw [Finset.mem_Icc]
    have h1 := hfull p.1 p.2
    have h2 := hir p.1 p.2
    omega
  have := Finset.card_eq_sum_card_fiberwise hmem
  rw [← this]
  simp

theorem latinOK_of_full {g : Grid} (hfull : isFull g) (hir : inRange g)
    (hnd : noDups g) : latinOK g := by
  have hfiber : ∀ d ∈ Finset.Icc (1 : Nat) 9,
      (Finset.univ.filter fun p : Fin 9 × Fin 9 => g p.1 p.2 = d).card = 9 := by
    refine all_eq_of_sum_eq ?_ ?_
    · intro d hd
      rw [Finset.mem_Icc] at hd
      rw [card_digit_fiber_rows]
      calc ∑ r : Fin 9, rowCount g r d ≤ ∑ _r : Fin 9, 1 :=
            Finset.sum_le_sum fun r _ => rowCount_le_one hnd r (by omega)
        _ = 9 := by simp
    · rw [sum_digit_fibers hfull hir]
      have : (Finset.Icc (1 : Nat) 9).card = 9 := by decide
      rw [this]
  intro d hd1 hd9
  have hd : d ∈ Finset.Icc (1 : Nat) 9 := by rw [Finset.mem_Icc]; exact ⟨hd1, hd9⟩
  have hdne : d ≠ 0 := by omega
  refine ⟨?_, ?_, ?_⟩
  · have hsplit := card_digit_fiber_rows g d
    rw [hfiber d hd] at hsplit
    have hle : (Finset.univ : Finset (Fin 9)).card * 1 ≤
        ∑ r : Fin 9, rowCount g r d := by
      rw [← hsplit]
      simp
    have := all_eq_of_sum_eq (fun r _ => rowCount_le_one hnd r hdne) hle
    exact fun r => this r (Finset.mem_univ r)
  · have hsplit := card_digit_fiber_cols g d
    rw [hfiber d hd] at hsplit
    have hle : (Finset.univ : Finset (Fin 9)).card * 1 ≤
        ∑ c : Fin 9, colCount g c d := by
      rw [← hsplit]
      simp
    have := all_eq_of_sum_eq (fun c _ => colCount_le_one hnd c hdne) hle
    exact fun c => this c (Finset.mem_univ c)
  · have hsplit := card_digit_fiber_boxes g d
    rw [hfiber d hd] at hsplit
    have hle : (Finset.univ : Finset (Fin 3 × Fin 3)).card * 1 ≤
        ∑ b : Fin 3 × Fin 3, boxCount g b.1 b.2 d := by
      rw [← hsplit]
      simp
    have := all_eq_of_sum_eq
      (fun (b : Fin 3 × Fin 3) _ => boxCount_le_one hnd b.1 b.2 hdne) hle
    exact fun br bc => this (br, bc) (Finset.mem_univ _)

/-! ### Carving -/

theorem keeps_inRange {g sol : Grid} (hk : ∀ r c, g r c ≠ 0 → g r c = sol r c)
    (hir : inRange sol) : inRange g := by
  intro r c
  by_cases h : g r c = 0
  · omega
  · rw [hk r c h]
    exact hir r c

theorem keeps_noDups {g sol : Grid} (hk : ∀ r c, g r c ≠ 0 → g r c = sol r c)
    (hnd : noDups sol) : noDups g := by
  intro a b a' b' hconf hne h0 he
  have h0' : g a' b' ≠ 0 := by rw [← he]; exact h0
  have e1 := hk a b h0
  have e2 := hk a' b' h0'
  refine hnd a b a' b' hconf hne (by rw [← e1]; exact h0) ?_
  rw [← e1, ← e2]
  exact he

theorem carveLoop_invariant {sol : Grid} (hir : inRange sol) (hnd : noDups sol) :
    ∀ (cells : List Nat) (g : Grid) (removed toRemove : Nat) (s : Rng),
      (∀ r c, g r c ≠ 0 → g r c = sol r c) → numSols g = 1 →
      (∀ r c, (carveLoop cells g removed toRemove s).1 r c ≠ 0 →
        (carveLoop cells g removed toRemove s).1 r c = sol r c) ∧
      numSols (carveLoop cells g removed toRemove s).1 = 1 := by
  intro cells
  induction cells with
  | nil => exact fun g removed toRemove s hk h1 => ⟨hk, h1⟩
  | cons pos rest ih =>
    intro g removed toRemove s hk h1
    simp only [carveLoop]
    by_cases hstop : toRemove ≤ removed
    · rw [if_pos hstop]
      exact ⟨hk, h1⟩
    · rw [if_neg hstop]
      by_cases hz : g (cellOfPos pos).1 (cellOfPos pos).2 = 0
      · rw [if_pos hz]
        exact ih g removed toRemove s hk h1
      · rw [if_neg hz]
        have hk1 : ∀ r c, setCell g (cellOfPos pos).1 (cellOfPos pos).2 0 r c ≠ 0 →
            setCell g (cellOfPos pos).1 (cellOfPos pos).2 0 r c = sol r c := by
          intro r c hrc
          by_cases hp : r = (cellOfPos pos).1 ∧ c = (cellOfPos pos).2
          · rw [hp.1, hp.2, setCell_same] at hrc
            exact absurd rfl hrc
          · rw [setCell_other hp] at hrc ⊢
            exact hk r c hrc
        have hcs := @countSolutions_count
          (setCell g (cellOfPos pos).1 (cellOfPos pos).2 0) 2 s
          (keeps_inRange hk1 hir) (keeps_noDups hk1 hnd)
        by_cases hone :
            (countSolutions (setCell g (cellOfPos pos).1 (cellOfPos pos).2 0) 2 s).1 = 1
        · rw [if_pos hone]
          refine ih _ _ _ _ hk1 ?_
          rw [hone] at hcs
          omega
        · rw [if_neg hone]
          have hrestore : setCell (setCell g (cellOfPos pos).1 (cellOfPos pos).2 0)
              (cellOfPos pos).1 (cellOfPos pos).2 (g (cellOfPos pos).1 (cellOfPos pos).2) = g := by
            rw [setCell_setCell]
            exact setCell_self g _ _ rfl
          rw [hrestore]
          exact ih _ _ _ _ hk h1

theorem carveUnique_spec {g : Grid} (hfull : isFull g) (hir : inRange g)
    (hnd : noDups g) (toRemove : Nat) (s : Rng) :
    (∀ r c, (carveUnique g toRemove s).1 r c ≠ 0 →
      (carveUnique g toRemove s).1 r c = g r c) ∧
    numSols (carveUnique g toRemove s).1 = 1 := by
  simp only [carveUnique]
  exact carveLoop_invariant hir hnd _ g 0 toRemove _ (fun r c _ => rfl)
    (numSols_of_full hfull hir hnd)

theorem filledCount_setCell_zero {g : Grid} {r c : Fin 9} (h : g r c ≠ 0) :
    filledCount g = filledCount (setCell g r c 0) + 1 := by
  unfold filledCount
  have hset : (Finset.univ.filter fun p : Fin 9 × Fin 9 => setCell g r c 0 p.1 p.2 ≠ 0) =
      (Finset.univ.filter fun p : Fin 9 × Fin 9 => g p.1 p.2 ≠ 0).erase (r, c) := by
    ext ⟨a, b⟩
    simp only [Finset.mem_erase, Finset.mem_filter, Finset.mem_univ, true_and, Ne,
      Prod.mk.injEq]
    by_cases hp : a = r ∧ b = c
    · rw [hp.1, hp.2, setCell_same]
      simp
    · rw [setCell_other hp]
      constructor
      · intro hz
        exact ⟨fun hab => hp hab, hz⟩
      · intro hz
        exact hz.2
  rw [hset, Finset.card_erase_add_one]
  simp [h]

theorem carveLoop_filled : ∀ (cells : List Nat) (g : Grid) (removed toRemove : Nat)
    (s : Rng), filledCount g ≤
      filledCount (carveLoop cells g removed toRemove s).1 + (toRemove - removed) := by
  intro cells
  induction cells with
  | nil => intro g removed toRemove s; show filledCount g ≤ filledCount g + _; omega
  | cons pos rest ih =>
    intro g removed toRemove s
    simp only [carveLoop]
    by_cases hstop : toRemove ≤ removed
    · rw [if_pos hstop]
      show filledCount g ≤ filledCount g + _
      omega
    · rw [if_neg hstop]
      by_cases hz : g (cellOfPos pos).1 (cellOfPos pos).2 = 0
      · rw [if_pos hz]
        exact ih g removed toRemove s
      · rw [if_neg hz]
        by_cases hone :
            (countSolutions (setCell g (cellOfPos pos).1 (cellOfPos pos).2 0) 2 s).1 = 1
        · rw [if_pos hone]
          have hdrop := filledCount_setCell_zero hz
          have := ih (setCell g (cellOfPos pos).1 (cellOfPos pos).2 0) (removed + 1)
            toRemove (countSolutions (setCell g (cellOfPos pos).1 (cellOfPos pos).2 0) 2 s).2
          omega
        · rw [if_neg hone]
          have hrestore : setCell (setCell g (cellOfPos pos).1 (cellOfPos pos).2 0)
              (cellOfPos pos).1 (cellOfPos pos).2 (g (cellOfPos pos).1 (cellOfPos pos).2) = g := by
            rw [setCell_setCell]
            exact setCell_self g _ _ rfl
          rw [hrestore]
          exact ih g removed toRemove _

theorem carveUnique_filled (g : Grid) (toRemove : Nat) (s : Rng) :
    filledCount g ≤ filledCount (carveUnique g toRemove s).1 + toRemove := by
  simp only [carveUnique]
  have := carveLoop_filled ((List.finRange 81).map (fisherYatesGo (n := 80) 80
    (fun k => k.val) s).1) g 0 toRemove (fisherYatesGo (n := 80) 80 (fun k => k.val) s).2
  simpa using this

theorem filledCount_of_full {g : Grid} (hfull : isFull g) : filledCount g = 81 := by
  unfold filledCount
  rw [Finset.filter_true_of_mem
    (fun (p : Fin 9 × Fin 9) (_ : p ∈ Finset.univ) => hfull p.1 p.2)]
  simp

/-! ### Generation -/

theorem zeroGrid_inRange : inRange zeroGrid := fun _ _ => by
  show (0 : Nat) ≤ 9
  omega

theorem zeroGrid_noDups : noDups zeroGrid := fun _ _ _ _ _ _ h0 => absurd rfl h0

theorem sols_zeroGrid_nonempty : (sols zeroGrid).Nonempty := by
  refine ⟨baseSol, ?_⟩
  rw [mem_sols]
  exact ⟨fun r c h => absurd rfl h, by decide⟩

theorem fillGrid_zero_true (s : Rng) : (fillGrid zeroGrid s).1 = true := by
  unfold fillGrid
  rw [fillGridF_eq_solveSudokuF]
  exact solveSudokuF_complete _ _ _ (Nat.lt_succ_self _) sols_zeroGrid_nonempty

theorem fillGrid_zero_props (s : Rng) : isFull (fillGrid zeroGrid s).2.1 ∧
    inRange (fillGrid zeroGrid s).2.1 ∧ noDups (fillGrid zeroGrid s).2.1 := by
  have ht := fillGrid_zero_true s
  unfold fillGrid at ht ⊢
  rw [fillGridF_eq_solveSudokuF] at ht ⊢
  exact ⟨solveSudokuF_true_full _ _ _ ht,
    solveSudokuF_true_inRange _ _ _ zeroGrid_inRange ht,
    solveSudokuF_true_noDups _ _ _ zeroGrid_noDups ht⟩

theorem generatePuzzle_succ (fuel : Nat) (d : String) (s : Rng) :
    generatePuzzle (fuel + 1) d s =
      carveUnique (fillGrid zeroGrid s).2.1
        (81 - clueTarget d (randNext (fillGrid zeroGrid s).2.2).1)
        (randNext (fillGrid zeroGrid s).2.2).2 := by
  simp only [generatePuzzle, fillGrid_zero_true, if_true]

theorem clueTarget_bounds (d : String) (rv : Nat) :
    (d = "easy" → 45 ≤ clueTarget d rv ∧ clueTarget d rv ≤ 50) ∧
    (d = "medium" → 34 ≤ clueTarget d rv ∧ clueTarget d rv ≤ 39) ∧
    (d = "hard" → 24 ≤ clueTarget d rv ∧ clueTarget d rv ≤ 29) ∧
    ((d ≠ "easy" ∧ d ≠ "medium" ∧ d ≠ "hard") →
      34 ≤ clueTarget d rv ∧ clueTarget d rv ≤ 39) ∧
    clueTarget d rv ≤ 50 := by
  have hmod : rv % 6 < 6 := Nat.mod_lt _ (by omega)
  unfold clueTarget
  by_cases h1 : d = "easy"
  · rw [if_pos h1]
    exact ⟨fun _ => ⟨by omega, by omega⟩,
      fun hm => absurd (h1.symm.trans hm) (by decide),
      fun hh => absurd (h1.symm.trans hh) (by decide),
      fun hn => absurd h1 hn.1, by omega⟩
  · rw [if_neg h1]
    by_cases h2 : d = "medium"
    · rw [if_pos h2]
      exact ⟨fun he => absurd (h2.symm.trans he) (by decide),
        fun _ => ⟨by omega, by omega⟩,
        fun hh => absurd (h2.symm.trans hh) (by decide),
        fun hn => absurd h2 hn.2.1, by omega⟩
    · rw [if_neg h2]
      by_cases h3 : d = "hard"
      · rw [if_pos h3]
        exact ⟨fun he => absurd (h3.symm.trans he) (by decide),
          fun hm => absurd (h3.symm.trans hm) (by decide),
          fun _ => ⟨by omega, by omega⟩,
          fun hn => absurd h3 hn.2.2, by omega⟩
      · rw [if_neg h3]
        exact ⟨fun he => absurd he h1, fun hm => absurd hm h2,
          fun hh => absurd hh h3, fun _ => ⟨by omega, by omega⟩, by omega⟩

/-! ### The all-ones grid: full but invalid, refuting unrestricted claims -/

theorem numSols_allOnes : numSols allOnes = 0 := by
  rw [numSols, Finset.card_eq_zero]
  ext h
  simp only [mem_sols, Finset.not_mem_empty, iff_false]
  rintro ⟨hc, hgood⟩
  have h00 := hc 0 0 (by simp [allOnes])
  have h01 := hc 0 1 (by simp [allOnes])
  exact hgood 0 0 0 1 (Or.inl rfl) (by decide) (toGrid_ne_zero h 0 0)
    (h00.trans h01.symm)

theorem solveSudoku_true_mem {g : Grid} (s : Rng) (hir : inRange g)
    (hnd : noDups g) (hb : (solveSudoku g s).1 = true) : (sols g).Nonempty := by
  unfold solveSudoku at hb
  have hfull := solveSudokuF_true_full _ _ _ hb
  have hir' := solveSudokuF_true_inRange _ _ _ hir hb
  have hnd' := solveSudokuF_true_noDups _ _ _ hnd hb
  refine ⟨toFull (solveSudokuF (numEmpty g + 1) g s).2.1, ?_⟩
  rw [mem_sols]
  refine ⟨?_, ?_⟩
  · intro r c hrc
    rw [toGrid_toFull hfull hir']
    exact solveSudokuF_preserve _ _ _ r c hrc
  · unfold goodFull
    rw [toGrid_toFull hfull hir']
    exact hnd'

/-! ### The claims -/

/-- C1: for every difficulty string (and any positive retry fuel and random
stream), the complete solution `generatePuzzle` builds with `fillGrid`
before carving is a full valid grid, every nonzero cell of the returned
puzzle equals the corresponding cell of that very solution, and the puzzle
has exactly one full valid completion — `countSolutions(puzzle, 2) = 1`
for every random stream of the query. -/
theorem generatePuzzle_unique_and_from_solution (fuel : Nat) (d : String)
    (s s2 : Rng) :
    isFull (fillGrid zeroGrid s).2.1 ∧ noDups (fillGrid zeroGrid s).2.1 ∧
      inRange (fillGrid zeroGrid s).2.1 ∧
      (∀ r c, (generatePuzzle (fuel + 1) d s).1 r c ≠ 0 →
        (generatePuzzle (fuel + 1) d s).1 r c = (fillGrid zeroGrid s).2.1 r c) ∧
      (countSolutions (generatePuzzle (fuel + 1) d s).1 2 s2).1 = 1 := by
  obtain ⟨hfull, hir, hnd⟩ := fillGrid_zero_props s
  rw [generatePuzzle_succ]
  obtain ⟨hk, h1⟩ := carveUnique_spec hfull hir hnd
    (81 - clueTarget d (randNext (fillGrid zeroGrid s).2.2).1)
    (randNext (fillGrid zeroGrid s).2.2).2
  refine ⟨hfull, hnd, hir, hk, ?_⟩
  rw [countSolutions_count s2 (keeps_inRange hk hir) (keeps_noDups hk hnd), h1]
  decide

theorem generatePuzzle_unique_and_from_solution_witness :
    isFull (fillGrid zeroGrid rng0).2.1 ∧ noDups (fillGrid zeroGrid rng0).2.1 ∧
      inRange (fillGrid zeroGrid rng0).2.1 ∧
      (∀ r c, (generatePuzzle (0 + 1) "easy" rng0).1 r c ≠ 0 →
        (generatePuzzle (0 + 1) "easy" rng0).1 r c =
          (fillGrid zeroGrid rng0).2.1 r c) ∧
      (countSolutions (generatePuzzle (0 + 1) "easy" rng0).1 2 rng0).1 = 1 :=
  generatePuzzle_unique_and_from_solution 0 "easy" rng0 rng0

/-- C2 (amended): for every grid whose entries are in the data-model range
0..9 with no duplicate nonzero digit in a row, column or box, and every
limit, `countSolutions` returns `min` of the number of distinct full valid
completions and the limit.  (On grids violating the data-model invariant
the original claim fails, see the counterexample.) -/
theorem countSolutions_returns_min (g : Grid) (limit : Nat) (s : Rng)
    (hir : inRange g) (hnd : noDups g) :
    (countSolutions g limit s).1 = min (numSols g) limit :=
  countSolutions_count s hir hnd

theorem countSolutions_returns_min_witness :
    inRange zeroGrid ∧ noDups zeroGrid ∧
      (countSolutions zeroGrid 2 rng0).1 = min (numSols zeroGrid) 2 :=
  ⟨by decide, by decide, countSolutions_returns_min zeroGrid 2 rng0 (by decide) (by decide)⟩

/-- C2 counterexample: on the all-ones grid (a full grid with duplicates),
`countSolutions` returns 1 although the grid has no valid completion, so
the unrestricted claim `countSolutions(g, limit) = min(n, limit)` is false. -/
theorem countSolutions_returns_min_cex :
    (countSolutions allOnes 2 rng0).1 ≠ min (numSols allOnes) 2 := by
  rw [numSols_allOnes]
  decide

/-- C3: on every data-model grid whose placed digits satisfy row/column/box
uniqueness, if `solveSudoku` returns true the resulting grid has no empty
cell and every row, column and 3x3 box contains each digit 1..9 exactly
once. -/
theorem solveSudoku_true_valid (g : Grid) (s : Rng) (hir : inRange g)
    (hnd : noDups g) (ht : (solveSudoku g s).1 = true) :
    isFull (solveSudoku g s).2.1 ∧ latinOK (solveSudoku g s).2.1 := by
  unfold solveSudoku at ht ⊢
  exact ⟨solveSudokuF_true_full _ _ _ ht,
    latinOK_of_full (solveSudokuF_true_full _ _ _ ht)
      (solveSudokuF_true_inRange _ _ _ hir ht)
      (solveSudokuF_true_noDups _ _ _ hnd ht)⟩

theorem solveSudoku_true_valid_witness :
    inRange (toGrid baseSol) ∧ noDups (toGrid baseSol) ∧
      (solveSudoku (toGrid baseSol) rng0).1 = true ∧
      (isFull (solveSudoku (toGrid baseSol) rng0).2.1 ∧
        latinOK (solveSudoku (toGrid baseSol) rng0).2.1) :=
  ⟨by decide, by decide, by decide,
    solveSudoku_true_valid (toGrid baseSol) rng0 (by decide) (by decide) (by decide)⟩

/-- C4 (amended): on every data-model grid with no duplicate nonzero digit
in a row, column or box, if `solveSudoku` returns false the grid is
returned exactly as it was (every tentative placement undone), and false is
returned precisely when the grid has no full valid completion.  (On grids
violating the data-model invariant the iff direction of the original claim
fails, see the counterexample.) -/
theorem solveSudoku_false_frame_iff (g : Grid) (s : Rng) (hir : inRange g)
    (hnd : noDups g) :
    ((solveSudoku g s).1 = false → (solveSudoku g s).2.1 = g) ∧
      ((solveSudoku g s).1 = false ↔ numSols g = 0) := by
  refine ⟨fun hf => solveSudokuF_grid_eq _ _ _ hf, ?_, ?_⟩
  · intro hf
    by_contra hne
    have hpos : (sols g).Nonempty :=
      Finset.card_pos.mp (Nat.pos_of_ne_zero hne)
    have := solveSudokuF_complete (numEmpty g + 1) g s (Nat.lt_succ_self _) hpos
    unfold solveSudoku at hf
    rw [this] at hf
    exact Bool.noConfusion hf
  · intro h0
    cases hb : (solveSudoku g s).1 with
    | false => rfl
    | true =>
      exfalso
      have := solveSudoku_true_mem s hir hnd hb
      rw [numSols] at h0
      rw [Finset.card_eq_zero] at h0
      rw [h0] at this
      exact Finset.not_nonempty_empty this

theorem solveSudoku_false_frame_iff_witness :
    inRange (toGrid baseSol) ∧ noDups (toGrid baseSol) ∧
      (((solveSudoku (toGrid baseSol) rng0).1 = false →
          (solveSudoku (toGrid baseSol) rng0).2.1 = toGrid baseSol) ∧
        ((solveSudoku (toGrid baseSol) rng0).1 = false ↔
          numSols (toGrid baseSol) = 0)) :=
  ⟨by decide, by decide,
    solveSudoku_false_frame_iff (toGrid baseSol) rng0 (by decide) (by decide)⟩

/-- C4 counterexample: on the all-ones grid, `solveSudoku` returns true
although no full valid completion exists, so "false is returned precisely
when no completion exists" is false for arbitrary grids. -/
theorem solveSudoku_false_frame_iff_cex :
    ¬(((solveSudoku allOnes rng0).1 = false) ↔ numSols allOnes = 0) := by
  intro hiff
  have h1 := hiff.mpr numSols_allOnes
  have h2 : (solveSudoku allOnes rng0).1 = true := by decide
  rw [h2] at h1
  exact Bool.noConfusion h1

/-- C5: `isSafe(g, row, col, digit)` is true exactly when the digit appears
nowhere else in the row, nowhere else in the column, nowhere else in the
containing 3x3 box, and the target cell is empty. -/
theorem isSafe_characterization (g : Grid) (r c : Fin 9) (d : Nat)
    (h1 : 1 ≤ d) (h9 : d ≤ 9) :
    isSafe g r c d = true ↔
      ((∀ c' : Fin 9, c' ≠ c → g r c' ≠ d) ∧
        (∀ r' : Fin 9, r' ≠ r → g r' c ≠ d) ∧
        (∀ r' c' : Fin 9, r'.val / 3 = r.val / 3 → c'.val / 3 = c.val / 3 →
          ¬(r' = r ∧ c' = c) → g r' c' ≠ d) ∧
        g r c = 0) := by
  rw [isSafe_iff]
  constructor
  · rintro ⟨hrow, hcol, hbox, hz⟩
    refine ⟨?_, ?_, ?_, hz⟩
    · exact fun c' _ he => hrow ⟨c', he⟩
    · exact fun r' _ he => hcol ⟨r', he⟩
    · exact fun r' c' hb1 hb2 _ he => hbox ⟨r', c', hb1, hb2, he⟩
  · rintro ⟨hrow, hcol, hbox, hz⟩
    refine ⟨?_, ?_, ?_, hz⟩
    · rintro ⟨c', he⟩
      by_cases hc : c' = c
      · rw [hc, hz] at he
        omega
      · exact hrow c' hc he
    · rintro ⟨r', he⟩
      by_cases hr : r' = r
      · rw [hr, hz] at he
        omega
      · exact hcol r' hr he
    · rintro ⟨r', c', hb1, hb2, he⟩
      by_cases hp : r' = r ∧ c' = c
      · rw [hp.1, hp.2, hz] at he
        omega
      · exact hbox r' c' hb1 hb2 hp he

theorem isSafe_characterization_witness :
    1 ≤ 5 ∧ 5 ≤ 9 ∧
      (isSafe zeroGrid 0 0 5 = true ↔
        ((∀ c' : Fin 9, c' ≠ 0 → zeroGrid 0 c' ≠ 5) ∧
          (∀ r' : Fin 9, r' ≠ 0 → zeroGrid r' 0 ≠ 5) ∧
          (∀ r' c' : Fin 9, r'.val / 3 = (0 : Fin 9).val / 3 →
            c'.val / 3 = (0 : Fin 9).val / 3 → ¬(r' = 0 ∧ c' = 0) →
            zeroGrid r' c' ≠ 5) ∧
          zeroGrid 0 0 = 0)) :=
  ⟨by decide, by decide, isSafe_characterization zeroGrid 0 0 5 (by decide) (by decide)⟩

/-- C6: starting from a grid with no duplicate nonzero digit in any row,
column, or box, every grid reachable through the mutations the search
performs (`isSafe`-guarded placements and cell clears, the `SearchStep`
relation) again has no duplicate nonzero digit in any row, column, or
box. -/
theorem search_preserves_noDups (g g' : Grid)
    (hreach : Relation.ReflTransGen SearchStep g g') (hnd : noDups g) :
    noDups g' := by
  induction hreach with
  | refl => exact hnd
  | tail h1 h2 ih =>
    cases h2 with
    | place r c num hsafe => exact noDups_setCell_safe ih hsafe
    | clear r c => exact noDups_setCell_zero ih r c

theorem search_preserves_noDups_witness : noDups (setCell zeroGrid 0 0 1) :=
  search_preserves_noDups zeroGrid (setCell zeroGrid 0 0 1)
    (Relation.ReflTransGen.single (SearchStep.place zeroGrid 0 0 1 (by decide)))
    (by decide)

/-- C7: `generatePuzzle` carves with exactly the clue target
`clueTarget d rv` drawn from the `rand()` call made right after the fill;
that drawn target lies in 45..50 for "easy", 34..39 for "medium", 24..29
for "hard", and in the medium range 34..39 for any other token; carving
removes at most `81 - clueTarget d rv` cells, so the returned puzzle has
at least `clueTarget d rv` filled cells. -/
theorem generatePuzzle_clue_ranges (fuel : Nat) (d : String) (s : Rng) :
    generatePuzzle (fuel + 1) d s =
      carveUnique (fillGrid zeroGrid s).2.1
        (81 - clueTarget d (randNext (fillGrid zeroGrid s).2.2).1)
        (randNext (fillGrid zeroGrid s).2.2).2 ∧
    (d = "easy" → 45 ≤ clueTarget d (randNext (fillGrid zeroGrid s).2.2).1 ∧
      clueTarget d (randNext (fillGrid zeroGrid s).2.2).1 ≤ 50) ∧
    (d = "medium" → 34 ≤ clueTarget d (randNext (fillGrid zeroGrid s).2.2).1 ∧
      clueTarget d (randNext (fillGrid zeroGrid s).2.2).1 ≤ 39) ∧
    (d = "hard" → 24 ≤ clueTarget d (randNext (fillGrid zeroGrid s).2.2).1 ∧
      clueTarget d (randNext (fillGrid zeroGrid s).2.2).1 ≤ 29) ∧
    (d ≠ "easy" ∧ d ≠ "medium" ∧ d ≠ "hard" →
      34 ≤ clueTarget d (randNext (fillGrid zeroGrid s).2.2).1 ∧
        clueTarget d (randNext (fillGrid zeroGrid s).2.2).1 ≤ 39) ∧
    clueTarget d (randNext (fillGrid zeroGrid s).2.2).1 ≤
      filledCount (generatePuzzle (fuel + 1) d s).1 := by
  obtain ⟨he, hm, hh, ho, h50⟩ :=
    clueTarget_bounds d (randNext (fillGrid zeroGrid s).2.2).1
  refine ⟨generatePuzzle_succ fuel d s, he, hm, hh, ho, ?_⟩
  rw [generatePuzzle_succ]
  have hb := carveUnique_filled (fillGrid zeroGrid s).2.1
    (81 - clueTarget d (randNext (fillGrid zeroGrid s).2.2).1)
    (randNext (fillGrid zeroGrid s).2.2).2
  have hf := filledCount_of_full (fillGrid_zero_props s).1
  omega

theorem generatePuzzle_clue_ranges_witness :
    generatePuzzle (0 + 1) "hard" rng0 =
      carveUnique (fillGrid zeroGrid rng0).2.1
        (81 - clueTarget "hard" (randNext (fillGrid zeroGrid rng0).2.2).1)
        (randNext (fillGrid zeroGrid rng0).2.2).2 ∧
    ("hard" = "easy" →
      45 ≤ clueTarget "hard" (randNext (fillGrid zeroGrid rng0).2.2).1 ∧
        clueTarget "hard" (randNext (fillGrid zeroGrid rng0).2.2).1 ≤ 50) ∧
    ("hard" = "medium" →
      34 ≤ clueTarget "hard" (randNext (fillGrid zeroGrid rng0).2.2).1 ∧
        clueTarget "hard" (randNext (fillGrid zeroGrid rng0).2.2).1 ≤ 39) ∧
    ("hard" = "hard" →
      24 ≤ clueTarget "hard" (randNext (fillGrid zeroGrid rng0).2.2).1 ∧
        clueTarget "hard" (randNext (fillGrid zeroGrid rng0).2.2).1 ≤ 29) ∧
    ("hard" ≠ "easy" ∧ "hard" ≠ "medium" ∧ "hard" ≠ "hard" →
      34 ≤ clueTarget "hard" (randNext (fillGrid zeroGrid rng0).2.2).1 ∧
        clueTarget "hard" (randNext (fillGrid zeroGrid rng0).2.2).1 ≤ 39) ∧
    clueTarget "hard" (randNext (fillGrid zeroGrid rng0).2.2).1 ≤
      filledCount (generatePuzzle (0 + 1) "hard" rng0).1 :=
  generatePuzzle_clue_ranges 0 "hard" rng0

/-- C8: the counting search restores its board: `countSolutionsDFS` returns
its grid argument unchanged, and `countSolutions` runs the search on a
private copy of the caller's grid and returns only the count, so the
caller's grid is never mutated. -/
theorem countSolutions_no_mutation (fuel : Nat) (g : Grid) (cnt limit : Nat)
    (s : Rng) :
    (countSolutionsDFS fuel g cnt limit s).2.1 = g ∧
      (countSolutions g limit s).1 =
        (countSolutionsDFS (numEmpty g + 1) g 0 limit s).1 :=
  ⟨countSolutionsDFS_grid_eq fuel g cnt limit s, rfl⟩

/-- C9: on the all-zero grid, for every random stream, `fillGrid` returns
true and leaves a completely filled grid in which every row, column and
3x3 box contains each digit 1..9 exactly once. -/
theorem fillGrid_zero_succeeds (s : Rng) :
    (fillGrid zeroGrid s).1 = true ∧ isFull (fillGrid zeroGrid s).2.1 ∧
      latinOK (fillGrid zeroGrid s).2.1 := by
  obtain ⟨hfull, hir, hnd⟩ := fillGrid_zero_props s
  exact ⟨fillGrid_zero_true s, hfull, latinOK_of_full hfull hir hnd⟩

/-- C10: neither `solveSudoku` nor `fillGrid` ever alters an initially
filled cell: every cell nonzero at call time holds the same digit in the
returned grid. -/
theorem solver_preserves_clues (g : Grid) (s : Rng) (r c : Fin 9)
    (h : g r c ≠ 0) :
    (solveSudoku g s).2.1 r c = g r c ∧ (fillGrid g s).2.1 r c = g r c := by
  unfold solveSudoku fillGrid
  rw [fillGridF_eq_solveSudokuF]
  exact ⟨solveSudokuF_preserve _ _ _ r c h, solveSudokuF_preserve _ _ _ r c h⟩

theorem solver_preserves_clues_witness :
    setCell zeroGrid 0 0 5 0 0 ≠ 0 ∧
      ((solveSudoku (setCell zeroGrid 0 0 5) rng0).2.1 0 0 =
          setCell zeroGrid 0 0 5 0 0 ∧
        (fillGrid (setCell zeroGrid 0 0 5) rng0).2.1 0 0 =
          setCell zeroGrid 0 0 5 0 0) :=
  ⟨by decide, solver_preserves_clues (setCell zeroGrid 0 0 5) rng0 0 0 (by decide)⟩

end Sudoku
